import Mathlib

set_option maxRecDepth 100000

/-!
Shallow embedding of `SetVersion.py` (script that rewrites version strings in
`.csproj` and Inno Setup files) together with proofs about its behaviour.

Conventions of the embedding:
* Python byte strings are modelled as `List Char`.
* The filesystem seen by `os.walk(".")` is a list of directories in traversal
  order; each directory carries the path prefix `os.walk` reports for it and
  its files (basename and content) in listing order.
* `open(p, "rb+")`, `read`, `seek(0)`, `write(data)` is modelled by
  `writeBack`: the new data overwrites the front of the old bytes and, since
  the file is never truncated, any old bytes beyond the new length survive.
* `re.sub` with the concrete patterns of the script is modelled by a faithful
  leftmost, non-greedy scanner (`scanSub` for the `<Tag>(.*?)</Tag>` patterns,
  `scanIss` for `(#define MyAppVersion ).*`); `.` does not match a newline.
  The replacement templates are taken literally, which matches `re.sub` for
  any target version that contains no backslash.
-/

/-- A file as listed by `os.walk`: basename plus its current content. -/
structure SrcFile where
  name : List Char
  content : List Char
deriving DecidableEq, Repr

/-- One directory visited by `os.walk("."), in traversal order:
its reported path and the files it directly contains. -/
structure Dir where
  dpath : List Char
  files : List SrcFile
deriving DecidableEq, Repr

/-- The tree walked by the script, in `os.walk` order. -/
abbrev FileSystem := List Dir

/-- Well-formedness of the modelled tree: basenames contain no path
separator (true of anything `os.walk` yields). -/
def WF (fs : FileSystem) : Prop :=
  ∀ d ∈ fs, ∀ x ∈ d.files, ('/' : Char) ∉ x.name

instance (fs : FileSystem) : Decidable (WF fs) := by
  unfold WF
  infer_instance

/-- Python `s.split(sep)` for a one-character separator: `"".split(".") = [""]`. -/
def splitChar (sep : Char) : List Char → List (List Char)
  | [] => [[]]
  | c :: cs =>
    if c = sep then [] :: splitChar sep cs
    else
      match splitChar sep cs with
      | [] => [[c]]
      | p :: ps => (c :: p) :: ps

/-- Python `sep.join(parts)` for a one-character separator. -/
def joinSep (sep : Char) : List (List Char) → List Char
  | [] => []
  | [p] => p
  | p :: q :: ps => p ++ sep :: joinSep sep (q :: ps)

/-- `_GetVersionPrefix` (SetVersion.py lines 57-60):
`".".join(targetVersion.split(".")[:-1])`. -/
def GetVersionPfx (targetVersion : List Char) : List Char :=
  joinSep '.' ((splitChar '.' targetVersion).dropLast)

/-- Splits `s = a ++ '.' :: b` at the last dot (`b` dot-free); `none` if no dot. -/
def lastDotSplit : List Char → Option (List Char × List Char)
  | [] => none
  | c :: cs =>
    match lastDotSplit cs with
    | some (a, b) => some (c :: a, b)
    | none => if c = '.' then some ([], cs) else none

/-- Extension part of `os.path.splitext` on a basename: everything from the
last dot on, unless every character before that dot is itself a dot (the
leading-dot rule that makes `splitext(".csproj") = (".csproj", "")`). -/
def splitextExt (name : List Char) : List Char :=
  match lastDotSplit name with
  | none => []
  | some (a, b) => if a.any (fun c => c ≠ '.') then '.' :: b else []

/-- The basename of a path: the part after the last `'/'`. -/
def afterLastSlash (p : List Char) : List Char :=
  p.foldl (fun acc c => if c = '/' then [] else acc ++ [c]) []

/-- Extension part of `os.path.splitext` on a full path: Python only looks at
dots after the last separator, so this is `splitextExt` of the basename. -/
def pathExt (p : List Char) : List Char :=
  splitextExt (afterLastSlash p)

/-- `os.path.join(path, name)` for the paths produced by `os.walk(".")`. -/
def joinPath (d name : List Char) : List Char :=
  d ++ '/' :: name

/-- `EXTENSIONS = [".csproj", ".inno"]` (SetVersion.py line 9). -/
def EXTENSIONS : List (List Char) :=
  [".csproj".data, ".inno".data]

/-- `GetFilesToModify` (SetVersion.py lines 22-29): for each directory of the
walk, for each extension in `EXTENSIONS` in order, collect the files whose
`splitext` extension equals it, and join them onto the directory path. -/
def GetFilesToModify (fs : FileSystem) : List (List Char) :=
  fs.flatMap (fun d =>
    (EXTENSIONS.flatMap (fun ext =>
      d.files.filter (fun x => splitextExt x.name = ext))).map
      (fun x => joinPath d.dpath x.name))

/-- Scanner core for `re.sub` of a pattern `L(.*?)R` with literal `L`, `R`:
given the text after an occurrence of `L`, find the shortest newline-free
inner segment up to the next `R`; returns the inner segment and the rest. -/
def matchAfterOpen (R : List Char) : List Char → Option (List Char × List Char)
  | [] => if R.isPrefixOf ([] : List Char) then some ([], []) else none
  | c :: cs =>
    if R.isPrefixOf (c :: cs) then some ([], (c :: cs).drop R.length)
    else if c = '\n' then none
    else (matchAfterOpen R cs).map (fun p => (c :: p.1, p.2))

/-- Fuel-indexed leftmost scan of `re.sub(L(.*?)R, B, s)` with a literal
replacement `B`; `fuel ≥ s.length` makes the fuel irrelevant for the
nonempty literals `L` used here. -/
def scanSubF (L R B : List Char) : Nat → List Char → List Char
  | _, [] => []
  | 0, s => s
  | fuel + 1, c :: cs =>
    if L.isPrefixOf (c :: cs) then
      match matchAfterOpen R ((c :: cs).drop L.length) with
      | some (_, r) => B ++ scanSubF L R B fuel r
      | none => c :: scanSubF L R B fuel cs
    else c :: scanSubF L R B fuel cs

/-- `re.sub(L(.*?)R, B, s)` for nonempty literals `L`, `R` and literal
replacement `B`. -/
def scanSub (L R B s : List Char) : List Char :=
  scanSubF L R B s.length s

/-- The inner groups captured by the successive matches of `L(.*?)R` in `s`
(fuel-indexed). -/
def scanInnersF (L R : List Char) : Nat → List Char → List (List Char)
  | _, [] => []
  | 0, _ => []
  | fuel + 1, c :: cs =>
    if L.isPrefixOf (c :: cs) then
      match matchAfterOpen R ((c :: cs).drop L.length) with
      | some (i, r) => i :: scanInnersF L R fuel r
      | none => scanInnersF L R fuel cs
    else scanInnersF L R fuel cs

/-- The inner groups of all matches of `L(.*?)R` in `s`. -/
def scanInners (L R s : List Char) : List (List Char) :=
  scanInnersF L R s.length s

/-- The literal `<Version>`. -/
def openVerTag : List Char := "<Version>".data

/-- The literal `</Version>`. -/
def closeVerTag : List Char := "</Version>".data

/-- The literal `<VersionPrefix>`. -/
def openVerPfxTag : List Char := "<VersionPrefix>".data

/-- The literal `</VersionPrefix>`. -/
def closeVerPfxTag : List Char := "</VersionPrefix>".data

/-- The in-memory transformation of `ModifyCsprojFiles` (SetVersion.py lines
36-41): substitute the `<Version>` tags with the target version, then the
`<VersionPrefix>` tags with its derived prefix. -/
def csprojTransform (targetVersion data : List Char) : List Char :=
  scanSub openVerPfxTag closeVerPfxTag
    (openVerPfxTag ++ GetVersionPfx targetVersion ++ closeVerPfxTag)
    (scanSub openVerTag closeVerTag
      (openVerTag ++ targetVersion ++ closeVerTag) data)

/-- The captured group of `(#define MyAppVersion ).*`. -/
def issToken : List Char := "#define MyAppVersion ".data

/-- Everything from the first newline of `l` on (`.*` in a regex stops just
before it); `[]` when `l` has no newline. -/
def restOfLine : List Char → List Char
  | [] => []
  | c :: cs => if c = '\n' then c :: cs else restOfLine cs

/-- Whether the directive token occurs anywhere in `l` (as a contiguous
substring). -/
def containsToken : List Char → Bool
  | [] => false
  | c :: cs => issToken.isPrefixOf (c :: cs) || containsToken cs

/-- Modelled from the spec sentence for the installer-script updater, amended
with the extra space the replacement template produces: a line beginning with
the directive token is replaced by the token, one further space, and the
double-quoted target version; other lines pass through. -/
def specLineRewrite (V l : List Char) : List Char :=
  if issToken.isPrefixOf l then issToken ++ ' ' :: '\x22' :: (V ++ ['\x22'])
  else l

/-- Fuel-indexed scan of `re.sub((#define MyAppVersion ).*, \1 "V", s)`:
at each occurrence of the token, the rest of the line is consumed and the
replacement emits the captured token, a space, and the double-quoted target
version. -/
def scanIssF (V : List Char) : Nat → List Char → List Char
  | _, [] => []
  | 0, s => s
  | fuel + 1, c :: cs =>
    if issToken.isPrefixOf (c :: cs) then
      issToken ++ ' ' :: '\x22' :: (V ++ ['\x22']) ++
        scanIssF V fuel (restOfLine ((c :: cs).drop issToken.length))
    else c :: scanIssF V fuel cs

/-- The in-memory transformation of `ModifyIssFiles` (SetVersion.py lines
49-53). -/
def issTransform (targetVersion data : List Char) : List Char :=
  scanIssF targetVersion data.length data

/-- `f.read(); f.seek(0); f.write(new)` on a `"rb+"` handle: the new bytes
overwrite the front of the file and, because nothing truncates it, the old
bytes beyond `new.length` remain. -/
def writeBack (orig new : List Char) : List Char :=
  new ++ orig.drop new.length

/-- Rewrite, with `g`, the content of every file whose joined path is `p`. -/
def updatePath (g : List Char → List Char) (p : List Char) (fs : FileSystem) :
    FileSystem :=
  fs.map (fun d =>
    ⟨d.dpath, d.files.map (fun x =>
      if joinPath d.dpath x.name = p then ⟨x.name, g x.content⟩ else x)⟩)

/-- `ModifyCsprojFiles` (SetVersion.py lines 31-42): filter the discovered
list down to `.csproj` paths, and for each one in order read the file,
transform it, and write back without truncation.  Also returns the list of
paths it processed (the files it printed and opened), in order. -/
def ModifyCsprojFiles (fileList : List (List Char)) (targetVersion : List Char)
    (disk : FileSystem) : FileSystem × List (List Char) :=
  let csprojFiles := fileList.filter (fun f => pathExt f = ".csproj".data)
  (csprojFiles.foldl
    (fun d f =>
      updatePath (fun data => writeBack data (csprojTransform targetVersion data)) f d)
    disk,
   csprojFiles)

/-- `ModifyIssFiles` (SetVersion.py lines 44-54): same shape, but filtering
the discovered list for `.iss` paths and applying the directive rewrite. -/
def ModifyIssFiles (fileList : List (List Char)) (targetVersion : List Char)
    (disk : FileSystem) : FileSystem × List (List Char) :=
  let issFiles := fileList.filter (fun f => pathExt f = ".iss".data)
  (issFiles.foldl
    (fun d f =>
      updatePath (fun data => writeBack data (issTransform targetVersion data)) f d)
    disk,
   issFiles)

/-- `main` (SetVersion.py lines 11-18): `sys.argv[1]` is read first (an
`IndexError` aborts the run before any file is listed or opened), then the
discovery runs once and the two updater passes run in sequence.  The result
is the final disk together with the ordered list of files processed. -/
def mainRun (argv : List (List Char)) (disk : FileSystem) :
    Except Unit (FileSystem × List (List Char)) :=
  match argv.get? 1 with
  | none => Except.error ()
  | some targetVer =>
    let fileList := GetFilesToModify disk
    let r1 := ModifyCsprojFiles fileList targetVer disk
    let r2 := ModifyIssFiles fileList targetVer r1.1
    Except.ok (r2.1, r1.2 ++ r2.2)

/-- The disk state after a run of the script (unchanged when the run aborts
before touching anything). -/
def diskAfter (argv : List (List Char)) (disk : FileSystem) : FileSystem :=
  match mainRun argv disk with
  | Except.ok r => r.1
  | Except.error _ => disk

/-- Content of the `j`-th file of the `i`-th walked directory (`[]` when out
of range). -/
def contentAtD (fs : FileSystem) (i j : Nat) : List Char :=
  (((fs.get? i).bind (fun d => d.files.get? j)).map SrcFile.content).getD []

/-- Decidable equality of run results, for the concrete evaluations below. -/
instance {α β : Type} [DecidableEq α] [DecidableEq β] : DecidableEq (Except α β) := fun x y =>
  match x, y with
  | Except.error a, Except.error b =>
    if h : a = b then isTrue (by rw [h]) else isFalse (by intro hc; cases hc; exact h rfl)
  | Except.ok a, Except.ok b =>
    if h : a = b then isTrue (by rw [h]) else isFalse (by intro hc; cases hc; exact h rfl)
  | Except.error _, Except.ok _ => isFalse (by intro hc; cases hc)
  | Except.ok _, Except.error _ => isFalse (by intro hc; cases hc)

/-- An installer script with the version directive, as in the spec's example. -/
def issExample : List Char :=
  "[Setup]\n#define MyAppVersion \x221.0.0.0\x22\n".data

/-- A tree whose only file is `setup.iss` with the version directive. -/
def fsIss : FileSystem :=
  [⟨".".data, [⟨"setup.iss".data, issExample⟩]⟩]

/-- Command line `SetVersion.py 2.3.1.7`. -/
def argv2317 : List (List Char) :=
  ["SetVersion.py".data, "2.3.1.7".data]

/-- A single `<Version>` tag holding `1.0.0.0`. -/
def verTag100 : List Char := "<Version>1.0.0.0</Version>".data

/-- A tree whose only file is `app.csproj` containing one version tag. -/
def fsOneTag : FileSystem :=
  [⟨".".data, [⟨"app.csproj".data, verTag100⟩]⟩]

/-- Command line `SetVersion.py 2.0` (a target version shorter than the one
being replaced). -/
def argv20 : List (List Char) :=
  ["SetVersion.py".data, "2.0".data]

/-- Seven consecutive `<Version>1.0.0.0</Version>` tags. -/
def sevenTags : List Char := (List.replicate 7 verTag100).flatten

/-- A tree whose only file is `app.csproj` containing the seven tags. -/
def fsSevenTags : FileSystem :=
  [⟨".".data, [⟨"app.csproj".data, sevenTags⟩]⟩]

/-- A tree holding a `readme.txt` (with a version tag inside) alongside an
`app.csproj`. -/
def fsMixed : FileSystem :=
  [⟨".".data, [⟨"readme.txt".data, verTag100⟩, ⟨"app.csproj".data, verTag100⟩]⟩]

/-- A tree whose only file is named exactly `.csproj` (a dotfile with no
stem), holding a version tag. -/
def fsDotfile : FileSystem :=
  [⟨".".data, [⟨".csproj".data, verTag100⟩]⟩]

/-- C1: the claim says a run over a tree containing `setup.iss` (with a
`#define MyAppVersion "1.0.0.0"` line) and target version `2.3.1.7` discovers
that file and rewrites the line.  In fact `EXTENSIONS` lists `".inno"` while
`ModifyIssFiles` filters for `".iss"`, so discovery returns nothing, the run
leaves the tree byte-identical with an empty processing trace — even though
the installer rewrite would have changed the file's content had it run. -/
theorem setup_iss_never_discovered_or_rewritten :
    GetFilesToModify fsIss = [] ∧
    mainRun argv2317 fsIss = Except.ok (fsIss, []) ∧
    issTransform "2.3.1.7".data issExample ≠ issExample := by
  refine ⟨by decide, by decide, by decide⟩

/-- C2: the claim says the bytes on disk after the update equal exactly the
transformed text, even when the transformed text is shorter.  The `"rb+"`
open plus `seek(0)` plus `write` never truncates, so on a one-tag `.csproj`
rewritten from version `1.0.0.0` to `2.0` the disk keeps a four-byte residue
`ion>` of the old content after the transformed text. -/
theorem writeback_leaves_residue :
    contentAtD (diskAfter argv20 fsOneTag) 0 0 =
      "<Version>2.0</Version>ion>".data ∧
    contentAtD (diskAfter argv20 fsOneTag) 0 0 ≠
      csprojTransform "2.0".data verTag100 := by
  refine ⟨by decide, by decide⟩

/-- C3: the claim says after a run every `<Version>` tag of every project
file contains exactly the target version.  On a `.csproj` holding seven
`<Version>1.0.0.0</Version>` tags, rewriting to the shorter version `2.0`
shrinks the text by 28 bytes, so the non-truncating write leaves a full old
tag in the residue: the resulting file still contains a `<Version>` tag whose
inner text is `1.0.0.0`, not `2.0`. -/
theorem old_version_tag_survives_run :
    "1.0.0.0".data ∈
      scanInners openVerTag closeVerTag
        (contentAtD (diskAfter argv20 fsSevenTags) 0 0) ∧
    ("1.0.0.0".data : List Char) ≠ "2.0".data := by
  refine ⟨by decide, by decide⟩

/-- C6: the claim says running the tool twice with the same target version
leaves every file byte-identical to the state after one run.  On the
seven-tag `.csproj` with target `2.0`, the residue left by the first run's
non-truncating write contains an old tag, which the second run rewrites,
so the disk after two runs differs from the disk after one. -/
theorem second_run_changes_disk :
    diskAfter argv20 (diskAfter argv20 fsSevenTags) ≠
      diskAfter argv20 fsSevenTags := by
  decide

/-- C7: when the target-version argument is missing, `sys.argv[1]` is
evaluated before anything else, so the run aborts with the index error and
the tree is not touched: `mainRun` returns the error without producing any
modified disk, and the post-run disk equals the initial one. -/
theorem missing_argument_aborts_untouched
    (argv : List (List Char)) (fs : FileSystem)
    (h : argv.get? 1 = none) :
    mainRun argv fs = Except.error () ∧ diskAfter argv fs = fs := by
  constructor
  · unfold mainRun
    rw [h]
  · unfold diskAfter mainRun
    rw [h]

/-- Witness for C7 at a concrete command line carrying only the script name
and a concrete tree. -/
theorem missing_argument_aborts_untouched_witness :
    mainRun ["SetVersion.py".data] fsOneTag = Except.error () ∧
    diskAfter ["SetVersion.py".data] fsOneTag = fsOneTag :=
  missing_argument_aborts_untouched ["SetVersion.py".data] fsOneTag rfl

lemma isPrefixOf_self_append (l t : List Char) : l.isPrefixOf (l ++ t) = true := by
  simp [List.isPrefixOf_iff_prefix]

lemma scanIssF_nil (V : List Char) (fuel : Nat) : scanIssF V fuel [] = [] := by
  cases fuel <;> rfl

lemma restOfLine_eq_nil (l : List Char) (h : ('\n' : Char) ∉ l) :
    restOfLine l = [] := by
  induction l with
  | nil => rfl
  | cons c cs ih =>
    simp only [restOfLine]
    have hcn : ¬ c = '\n' := fun hc => h (by rw [← hc]; exact List.mem_cons_self c cs)
    rw [if_neg hcn]
    exact ih (fun hm => h (List.mem_cons_of_mem c hm))

lemma scanIssF_token_step (V : List Char) (fuel : Nat) (tail : List Char) :
    scanIssF V (fuel + 1) (issToken ++ tail) =
      issToken ++ ' ' :: '\x22' :: (V ++ ['\x22']) ++
        scanIssF V fuel (restOfLine tail) := by
  have h1 : issToken ++ tail = '#' :: ("define MyAppVersion ".data ++ tail) := rfl
  have hp : issToken.isPrefixOf (issToken ++ tail) = true :=
    isPrefixOf_self_append issToken tail
  have hd : (issToken ++ tail).drop issToken.length = tail := List.drop_left _ _
  conv_lhs => rw [h1]
  simp only [scanIssF]
  rw [← h1, hp]
  simp only [if_true, hd]

/-- C4 (counterexample): on the directive line
`#define MyAppVersion "1.0.0.0"` with target `2.3.1.7` the claimed output
`#define MyAppVersion "2.3.1.7"` (one space before the quoted value) is not
what the rewrite produces: the replacement template `\1 "..."` adds a space
after the captured token, which itself ends in one. -/
theorem iss_rewrite_single_space_fails :
    issTransform "2.3.1.7".data "#define MyAppVersion \x221.0.0.0\x22".data ≠
        "#define MyAppVersion \x222.3.1.7\x22".data ∧
    issTransform "2.3.1.7".data "#define MyAppVersion \x221.0.0.0\x22".data =
        "#define MyAppVersion  \x222.3.1.7\x22".data := by
  refine ⟨by decide, by decide⟩

lemma iss_directive_rewrite (V tail : List Char)
    (h : ('\n' : Char) ∉ tail) :
    issTransform V (issToken ++ tail) =
      issToken ++ ' ' :: '\x22' :: (V ++ ['\x22']) := by
  unfold issTransform
  have hlen : issToken.length = 21 := rfl
  have hl : (issToken ++ tail).length = (20 + tail.length) + 1 := by
    rw [List.length_append, hlen]; omega
  rw [hl, scanIssF_token_step, restOfLine_eq_nil _ h, scanIssF_nil,
    List.append_nil]

lemma splitChar_ne_nil (sep : Char) (s : List Char) : splitChar sep s ≠ [] := by
  cases s with
  | nil => simp [splitChar]
  | cons c cs =>
    simp only [splitChar]
    split
    · simp
    · split <;> simp

lemma splitChar_cons_exists (sep : Char) (s : List Char) :
    ∃ p ps, splitChar sep s = p :: ps := by
  cases h : splitChar sep s with
  | nil => exact absurd h (splitChar_ne_nil sep s)
  | cons p ps => exact ⟨p, ps, rfl⟩

lemma joinSep_splitChar (sep : Char) (s : List Char) :
    joinSep sep (splitChar sep s) = s := by
  induction s with
  | nil => rfl
  | cons c cs ih =>
    obtain ⟨p, ps, hps⟩ := splitChar_cons_exists sep cs
    by_cases hc : c = sep
    · subst hc
      simp only [splitChar, if_pos rfl, hps]
      rw [hps] at ih
      simp only [joinSep, List.nil_append]
      rw [ih]
    · simp only [splitChar, if_neg hc, hps]
      rw [hps] at ih
      cases ps with
      | nil =>
        simp only [joinSep] at ih ⊢
        rw [ih]
      | cons q qs =>
        simp only [joinSep] at ih ⊢
        rw [List.cons_append, ih]

lemma mem_splitChar_not_sep (sep : Char) (s : List Char) :
    ∀ p ∈ splitChar sep s, sep ∉ p := by
  induction s with
  | nil =>
    intro p hp
    simp [splitChar] at hp
    simp [hp]
  | cons c cs ih =>
    intro p hp
    by_cases hc : c = sep
    · subst hc
      simp only [splitChar, if_pos rfl] at hp
      rcases List.mem_cons.mp hp with h | h
      · simp [h]
      · exact ih p h
    · obtain ⟨q, qs, hqs⟩ := splitChar_cons_exists sep cs
      simp only [splitChar, if_neg hc, hqs] at hp
      rcases List.mem_cons.mp hp with h | h
      · subst h
        intro hmem
        rcases List.mem_cons.mp hmem with h | h
        · exact hc h.symm
        · exact ih q (hqs ▸ List.mem_cons_self q qs) h
      · exact ih p (hqs ▸ List.mem_cons_of_mem q h)

lemma joinSep_decomp (sep : Char) (a b : List Char) (t : List (List Char)) :
    ∃ last, last ∈ a :: b :: t ∧
      joinSep sep (a :: b :: t) =
        joinSep sep ((a :: b :: t).dropLast) ++ sep :: last := by
  induction t generalizing a b with
  | nil => exact ⟨b, by simp, rfl⟩
  | cons c t' ih =>
    obtain ⟨last, hmem, heq⟩ := ih b c
    refine ⟨last, ?_, ?_⟩
    · rcases List.mem_cons.mp hmem with h | h
      · simp [h]
      · simp [List.mem_cons_of_mem, h]
    · calc joinSep sep (a :: b :: c :: t')
          = a ++ sep :: joinSep sep (b :: c :: t') := rfl
        _ = a ++ sep :: (joinSep sep ((b :: c :: t').dropLast) ++ sep :: last) := by
            rw [heq]
        _ = (a ++ sep :: joinSep sep ((b :: c :: t').dropLast)) ++ sep :: last := by
            simp [List.append_assoc]
        _ = joinSep sep ((a :: b :: c :: t').dropLast) ++ sep :: last := rfl

/-- C5: the version-prefix deriver is a total function on strings; when the
input has at least two dot-separated components it returns the input with
everything from the last dot on removed (the removed tail holds no dot), and
when the input has exactly one component it returns the empty string. -/
theorem version_pfx_truncates_last_component (v : List Char) :
    (2 ≤ (splitChar '.' v).length →
      ∃ last, ('.' : Char) ∉ last ∧ v = GetVersionPfx v ++ '.' :: last) ∧
    ((splitChar '.' v).length = 1 → GetVersionPfx v = []) := by
  constructor
  · intro h2
    obtain ⟨a, rest, hl0⟩ := splitChar_cons_exists '.' v
    obtain ⟨b, t, hl1⟩ : ∃ b t, rest = b :: t := by
      cases rest with
      | nil => rw [hl0] at h2; simp at h2
      | cons b t => exact ⟨b, t, rfl⟩
    rw [hl1] at hl0
    obtain ⟨last, hmem, heq⟩ := joinSep_decomp '.' a b t
    refine ⟨last, mem_splitChar_not_sep '.' v last (hl0 ▸ hmem), ?_⟩
    conv_lhs => rw [← joinSep_splitChar '.' v, hl0, heq]
    unfold GetVersionPfx
    rw [hl0]
  · intro h1
    obtain ⟨p, ps, hp⟩ := splitChar_cons_exists '.' v
    have hps : ps = [] := by
      rw [hp] at h1
      simpa using h1
    unfold GetVersionPfx
    rw [hp, hps]
    rfl

/-- Witness for C5: the prefix of `1.2.3.4` is obtained by cutting at the
last dot, and the prefix of the single-component `5` is empty. -/
theorem version_pfx_witness :
    (∃ last, ('.' : Char) ∉ last ∧
      "1.2.3.4".data = GetVersionPfx "1.2.3.4".data ++ '.' :: last) ∧
    GetVersionPfx "5".data = [] :=
  ⟨(version_pfx_truncates_last_component "1.2.3.4".data).1 (by decide),
   (version_pfx_truncates_last_component "5".data).2 (by decide)⟩

/-- C8: the trace of processed files of a successful run is exactly the
`.csproj`-filtered discovery list followed by the `.iss`-filtered discovery
list: every project-definition file is processed, in discovery order, before
any installer-script file, because the two updater passes run in sequence. -/
theorem project_pass_precedes_iss_pass
    (argv : List (List Char)) (disk d : FileSystem) (t : List (List Char))
    (h : mainRun argv disk = Except.ok (d, t)) :
    t = (GetFilesToModify disk).filter (fun p => pathExt p = ".csproj".data) ++
        (GetFilesToModify disk).filter (fun p => pathExt p = ".iss".data) := by
  cases harg : argv.get? 1 with
  | none =>
    unfold mainRun at h
    rw [harg] at h
    exact absurd h (by simp)
  | some V =>
    unfold mainRun at h
    rw [harg] at h
    simp only [ModifyCsprojFiles, ModifyIssFiles, Except.ok.injEq, Prod.mk.injEq] at h
    exact h.2.symm

/-- Witness for C8 on the concrete seven-tag tree. -/
theorem project_pass_precedes_iss_pass_witness :
    (["./app.csproj".data] : List (List Char)) =
      (GetFilesToModify fsSevenTags).filter
        (fun p => pathExt p = ".csproj".data) ++
      (GetFilesToModify fsSevenTags).filter
        (fun p => pathExt p = ".iss".data) :=
  project_pass_precedes_iss_pass argv20 fsSevenTags
    (diskAfter argv20 fsSevenTags) ["./app.csproj".data] (by decide)

lemma mem_getFilesToModify (fs : FileSystem) (p : List Char)
    (hp : p ∈ GetFilesToModify fs) :
    ∃ d ∈ fs, ∃ x ∈ d.files,
      p = joinPath d.dpath x.name ∧ splitextExt x.name ∈ EXTENSIONS := by
  unfold GetFilesToModify at hp
  rw [List.mem_flatMap] at hp
  obtain ⟨d, hd, hmem⟩ := hp
  rw [List.mem_map] at hmem
  obtain ⟨x, hx, hpx⟩ := hmem
  rw [List.mem_flatMap] at hx
  obtain ⟨ext, hext, hxf⟩ := hx
  rw [List.mem_filter] at hxf
  obtain ⟨hxfiles, hxext⟩ := hxf
  refine ⟨d, hd, x, hxfiles, hpx.symm, ?_⟩
  rw [of_decide_eq_true hxext]
  exact hext

lemma foldl_afterLastSlash_no_slash (n : List Char) (hn : ('/' : Char) ∉ n) :
    ∀ acc, n.foldl (fun acc c => if c = '/' then [] else acc ++ [c]) acc =
      acc ++ n := by
  induction n with
  | nil => intro acc; simp
  | cons c cs ih =>
    intro acc
    have hc : ¬ c = '/' :=
      fun h => hn (by rw [← h] at *; exact List.mem_cons_self c cs)
    simp only [List.foldl_cons, if_neg hc]
    rw [ih (fun hm => hn (List.mem_cons_of_mem c hm)) (acc ++ [c])]
    simp

lemma afterLastSlash_joinPath (d n : List Char) (hn : ('/' : Char) ∉ n) :
    afterLastSlash (joinPath d n) = n := by
  unfold afterLastSlash joinPath
  rw [List.foldl_append]
  show List.foldl (fun acc c => if c = '/' then [] else acc ++ [c]) [] n = n
  rw [foldl_afterLastSlash_no_slash n hn []]
  simp

lemma pathExt_joinPath (d n : List Char) (hn : ('/' : Char) ∉ n) :
    pathExt (joinPath d n) = splitextExt n := by
  unfold pathExt
  rw [afterLastSlash_joinPath d n hn]

lemma discovered_pathExt (fs : FileSystem) (p : List Char)
    (hwf : WF fs) (hp : p ∈ GetFilesToModify fs) :
    pathExt p ∈ EXTENSIONS := by
  obtain ⟨d, hd, x, hx, hpe, hext⟩ := mem_getFilesToModify fs p hp
  rw [hpe, pathExt_joinPath _ _ (hwf d hd x hx)]
  exact hext

lemma iss_filter_empty (fs : FileSystem) (hwf : WF fs) :
    (GetFilesToModify fs).filter (fun p => pathExt p = ".iss".data) = [] := by
  rw [List.filter_eq_nil_iff]
  intro p hp
  have h := discovered_pathExt fs p hwf hp
  simp only [decide_eq_true_eq]
  intro hiss
  rw [hiss] at h
  exact absurd h (by decide)

lemma not_discovered (fs : FileSystem) (dd : Dir) (x : SrcFile)
    (hwf : WF fs) (hdd : dd ∈ fs) (hx : x ∈ dd.files)
    (hext : splitextExt x.name ∉ EXTENSIONS) :
    joinPath dd.dpath x.name ∉ GetFilesToModify fs := by
  intro hp
  obtain ⟨d2, hd2, y, hy, hpe, hyext⟩ := mem_getFilesToModify fs _ hp
  have hx' : ('/' : Char) ∉ x.name := hwf dd hdd x hx
  have hy' : ('/' : Char) ∉ y.name := hwf d2 hd2 y hy
  have hxy : x.name = y.name := by
    have ha := afterLastSlash_joinPath dd.dpath x.name hx'
    have hb := afterLastSlash_joinPath d2.dpath y.name hy'
    rw [hpe, hb] at ha
    exact ha.symm
  rw [hxy] at hext
  exact hext hyext

lemma foldl_updatePath_frame (g : List Char → List Char)
    (ps : List (List Char)) :
    ∀ (fs : FileSystem) (i j : Nat) (dd : Dir) (x : SrcFile),
      fs.get? i = some dd → dd.files.get? j = some x →
      (∀ p ∈ ps, joinPath dd.dpath x.name ≠ p) →
      ∃ dd2, (ps.foldl (fun dk p => updatePath g p dk) fs).get? i = some dd2 ∧
        dd2.dpath = dd.dpath ∧ dd2.files.get? j = some x := by
  induction ps with
  | nil =>
    intro fs i j dd x h1 h2 _
    exact ⟨dd, h1, rfl, h2⟩
  | cons p ps ih =>
    intro fs i j dd x h1 h2 hne
    rw [List.foldl_cons]
    refine ih (updatePath g p fs) i j
      ⟨dd.dpath, dd.files.map (fun y =>
        if joinPath dd.dpath y.name = p then ⟨y.name, g y.content⟩ else y)⟩
      x ?_ ?_ ?_
    · unfold updatePath
      rw [List.get?_map, h1]
      rfl
    · dsimp only
      rw [List.get?_map, h2]
      dsimp only [Option.map]
      rw [if_neg (hne p (List.mem_cons_self p ps))]
    · dsimp only
      intro q hq
      exact hne q (List.mem_cons_of_mem p hq)

lemma run_frame_core
    (argv : List (List Char)) (fs d : FileSystem) (t : List (List Char))
    (hwf : WF fs) (hrun : mainRun argv fs = Except.ok (d, t))
    (i j : Nat) (dd : Dir) (x : SrcFile)
    (h1 : fs.get? i = some dd) (h2 : dd.files.get? j = some x)
    (hext : splitextExt x.name ∉ EXTENSIONS) :
    (∃ dd2, d.get? i = some dd2 ∧ dd2.dpath = dd.dpath ∧
      dd2.files.get? j = some x) ∧
    joinPath dd.dpath x.name ∉ t := by
  have hnd := not_discovered fs dd x hwf (List.get?_mem h1) (List.get?_mem h2) hext
  cases harg : argv.get? 1 with
  | none =>
    unfold mainRun at hrun
    rw [harg] at hrun
    exact absurd hrun (by simp)
  | some V =>
    unfold mainRun at hrun
    rw [harg] at hrun
    simp only [ModifyCsprojFiles, ModifyIssFiles, Except.ok.injEq,
      Prod.mk.injEq] at hrun
    obtain ⟨hd, ht⟩ := hrun
    rw [iss_filter_empty fs hwf] at hd ht
    have hne : ∀ p ∈ (GetFilesToModify fs).filter
        (fun q => pathExt q = ".csproj".data),
        joinPath dd.dpath x.name ≠ p := by
      intro p hp heq
      exact hnd (heq ▸ (List.mem_filter.mp hp).1)
    constructor
    · rw [← hd]
      simp only [List.foldl_nil]
      exact foldl_updatePath_frame _ _ fs i j dd x h1 h2 hne
    · rw [← ht]
      simp only [List.append_nil]
      intro hmem
      exact hnd ((List.mem_filter.mp hmem).1)

/-- C9: in any well-formed tree, a file whose extension is not one of the two
recognized values (`.csproj`, `.inno`) is never processed by a run: it is
absent from the trace of opened files and its directory entry (path and
content) is unchanged on the resulting disk. -/
theorem unrecognized_extension_untouched
    (argv : List (List Char)) (fs d : FileSystem) (t : List (List Char))
    (hwf : WF fs) (hrun : mainRun argv fs = Except.ok (d, t))
    (i j : Nat) (dd : Dir) (x : SrcFile)
    (h1 : fs.get? i = some dd) (h2 : dd.files.get? j = some x)
    (hext : splitextExt x.name ∉ EXTENSIONS) :
    (∃ dd2, d.get? i = some dd2 ∧ dd2.dpath = dd.dpath ∧
      dd2.files.get? j = some x) ∧
    joinPath dd.dpath x.name ∉ t :=
  run_frame_core argv fs d t hwf hrun i j dd x h1 h2 hext

/-- Witness for C9: on the mixed tree, the run rewrites `app.csproj` but the
`readme.txt` entry survives unchanged and its path is not in the trace. -/
theorem unrecognized_extension_untouched_witness :
    (∃ dd2, (diskAfter argv20 fsMixed).get? 0 = some dd2 ∧
      dd2.dpath = ".".data ∧
      dd2.files.get? 0 = some ⟨"readme.txt".data, verTag100⟩) ∧
    joinPath ".".data "readme.txt".data ∉ ["./app.csproj".data] := by
  have h := unrecognized_extension_untouched argv20 fsMixed
    (diskAfter argv20 fsMixed) ["./app.csproj".data]
    (by decide) (by decide) 0 0
    ⟨".".data, [⟨"readme.txt".data, verTag100⟩, ⟨"app.csproj".data, verTag100⟩]⟩
    ⟨"readme.txt".data, verTag100⟩ (by decide) (by decide) (by decide)
  exact h

/-- C10: a file whose entire name is the recognized suffix `.csproj` with no
stem has, by the leading-dot rule of `splitext`, an empty extension: it is
never discovered, never opened, and its content is unchanged by a run. -/
theorem dotfile_csproj_untouched
    (argv : List (List Char)) (fs d : FileSystem) (t : List (List Char))
    (hwf : WF fs) (hrun : mainRun argv fs = Except.ok (d, t))
    (i j : Nat) (dd : Dir) (x : SrcFile)
    (h1 : fs.get? i = some dd) (h2 : dd.files.get? j = some x)
    (hname : x.name = ".csproj".data) :
    splitextExt x.name = [] ∧
    joinPath dd.dpath x.name ∉ GetFilesToModify fs ∧
    (∃ dd2, d.get? i = some dd2 ∧ dd2.dpath = dd.dpath ∧
      dd2.files.get? j = some x) ∧
    joinPath dd.dpath x.name ∉ t := by
  have hext : splitextExt x.name ∉ EXTENSIONS := by
    rw [hname]; decide
  have hempty : splitextExt x.name = [] := by
    rw [hname]; decide
  have hnd := not_discovered fs dd x hwf (List.get?_mem h1) (List.get?_mem h2) hext
  obtain ⟨ha, hb⟩ := run_frame_core argv fs d t hwf hrun i j dd x h1 h2 hext
  exact ⟨hempty, hnd, ha, hb⟩

/-- Witness for C10 on the dotfile tree. -/
theorem dotfile_csproj_untouched_witness :
    splitextExt ".csproj".data = [] ∧
    joinPath ".".data ".csproj".data ∉ GetFilesToModify fsDotfile ∧
    (∃ dd2, (diskAfter argv20 fsDotfile).get? 0 = some dd2 ∧
      dd2.dpath = ".".data ∧
      dd2.files.get? 0 = some ⟨".csproj".data, verTag100⟩) ∧
    joinPath ".".data ".csproj".data ∉ ([] : List (List Char)) := by
  have h := dotfile_csproj_untouched argv20 fsDotfile
    (diskAfter argv20 fsDotfile) []
    (by decide) (by decide) 0 0
    ⟨".".data, [⟨".csproj".data, verTag100⟩]⟩
    ⟨".csproj".data, verTag100⟩ (by decide) (by decide) rfl
  exact h

lemma restOfLine_length_le (l : List Char) : (restOfLine l).length ≤ l.length := by
  induction l with
  | nil => simp [restOfLine]
  | cons c cs ih =>
    simp only [restOfLine]
    split
    · exact Nat.le_refl _
    · exact Nat.le_trans ih (by simp)

lemma restOfLine_append (tail rest : List Char) (h : ('\n' : Char) ∉ tail) :
    restOfLine (tail ++ '\n' :: rest) = '\n' :: rest := by
  induction tail with
  | nil => simp [restOfLine]
  | cons c cs ih =>
    have hc : ¬ c = '\n' := by
      intro hh
      exact h (by rw [← hh]; exact List.mem_cons_self c cs)
    simp only [List.cons_append, restOfLine, if_neg hc]
    exact ih (fun hm => h (List.mem_cons_of_mem c hm))

lemma issToken_not_prefix_newline (cs : List Char) :
    issToken.isPrefixOf ('\n' :: cs) = false := by
  have h : issToken = '#' :: "define MyAppVersion ".data := rfl
  rw [h, List.isPrefixOf_cons₂]
  simp [show (('#' == '\n') : Bool) = false from rfl]

lemma scanIssF_fuel (V : List Char) :
    ∀ (f1 : Nat) (s : List Char) (f2 : Nat), s.length ≤ f1 → s.length ≤ f2 →
      scanIssF V f1 s = scanIssF V f2 s := by
  intro f1
  induction f1 with
  | zero =>
    intro s f2 h1 _
    have hs : s = [] := List.eq_nil_of_length_eq_zero (Nat.le_zero.mp h1)
    subst hs
    rw [scanIssF_nil, scanIssF_nil]
  | succ f ih =>
    intro s f2 h1 h2
    cases s with
    | nil => rw [scanIssF_nil, scanIssF_nil]
    | cons c cs =>
      cases f2 with
      | zero => exact absurd h2 (by simp)
      | succ g =>
        have hc1 : cs.length ≤ f := by
          have := h1; simp only [List.length_cons] at this; omega
        have hc2 : cs.length ≤ g := by
          have := h2; simp only [List.length_cons] at this; omega
        by_cases hp : issToken.isPrefixOf (c :: cs) = true
        · simp only [scanIssF, if_pos hp]
          have hd : ((c :: cs).drop issToken.length).length ≤ cs.length := by
            rw [List.length_drop]
            have h21 : issToken.length = 21 := rfl
            simp only [List.length_cons]
            omega
          have hr := Nat.le_trans
            (restOfLine_length_le ((c :: cs).drop issToken.length)) hd
          rw [ih (restOfLine ((c :: cs).drop issToken.length)) g
            (Nat.le_trans hr hc1) (Nat.le_trans hr hc2)]
        · simp only [scanIssF, if_neg hp]
          rw [ih cs g hc1 hc2]

lemma scanIss_no_token (V l : List Char) (h : containsToken l = false) :
    ∀ fuel, scanIssF V fuel l = l := by
  induction l with
  | nil => exact fun fuel => scanIssF_nil V fuel
  | cons c cs ih =>
    intro fuel
    have h2 : (issToken.isPrefixOf (c :: cs) || containsToken cs) = false := h
    obtain ⟨hnp, hct⟩ := Bool.or_eq_false_iff.mp h2
    cases fuel with
    | zero => rfl
    | succ f =>
      simp only [scanIssF]
      rw [if_neg (by simp [hnp])]
      rw [ih hct f]

lemma not_prefix_of_not_containsToken (l : List Char)
    (h : containsToken l = false) : issToken.isPrefixOf l = false := by
  cases l with
  | nil => rfl
  | cons c cs =>
    have h2 : (issToken.isPrefixOf (c :: cs) || containsToken cs) = false := h
    exact (Bool.or_eq_false_iff.mp h2).1

lemma token_prefix_of_append (l rest : List Char)
    (h : issToken.isPrefixOf (l ++ '\n' :: rest) = true) :
    issToken.isPrefixOf l = true := by
  rw [List.isPrefixOf_iff_prefix] at h ⊢
  by_cases hlen : issToken.length ≤ l.length
  · exact List.prefix_of_prefix_length_le h
      (List.prefix_append l ('\n' :: rest)) hlen
  · exfalso
    have htake := List.prefix_iff_eq_take.mp h
    rw [List.take_append_eq_append_take] at htake
    have h1 : l.take issToken.length = l := List.take_of_length_le (by omega)
    rw [h1] at htake
    have hmem : '\n' ∈ issToken := by
      rw [htake]
      refine List.mem_append.mpr (Or.inr ?_)
      have hk : ∃ k, issToken.length - l.length = k + 1 := by
        have h21 : issToken.length = 21 := rfl
        refine ⟨issToken.length - l.length - 1, by omega⟩
      obtain ⟨k, hk⟩ := hk
      rw [hk, List.take_succ_cons]
      exact List.mem_cons_self _ _
    exact absurd hmem (by decide)

lemma issTransform_no_token (V l : List Char) (h : containsToken l = false) :
    issTransform V l = l :=
  scanIss_no_token V l h l.length

lemma issTransform_clean_line (V l rest : List Char)
    (h : containsToken l = false) :
    issTransform V (l ++ '\n' :: rest) = l ++ '\n' :: issTransform V rest := by
  unfold issTransform
  induction l with
  | nil =>
    show scanIssF V (rest.length + 1) ('\n' :: rest) =
      '\n' :: scanIssF V rest.length rest
    simp only [scanIssF]
    rw [if_neg (by simp [issToken_not_prefix_newline])]
  | cons c cs ih =>
    have h2 : (issToken.isPrefixOf (c :: cs) || containsToken cs) = false := h
    obtain ⟨hnp, hct⟩ := Bool.or_eq_false_iff.mp h2
    have hnp2 : ¬ (issToken.isPrefixOf (c :: (cs ++ '\n' :: rest)) = true) := by
      intro hcon
      exact absurd (token_prefix_of_append (c :: cs) rest hcon) (by simp [hnp])
    show scanIssF V ((cs ++ '\n' :: rest).length + 1)
        (c :: (cs ++ '\n' :: rest)) = _
    simp only [scanIssF]
    rw [if_neg hnp2, ih hct]
    rfl

lemma issTransform_token_line (V tail rest : List Char)
    (ht : ('\n' : Char) ∉ tail) :
    issTransform V ((issToken ++ tail) ++ '\n' :: rest) =
      (issToken ++ ' ' :: '\x22' :: (V ++ ['\x22'])) ++ '\n' ::
        issTransform V rest := by
  unfold issTransform
  rw [List.append_assoc]
  have hlen : (issToken ++ (tail ++ '\n' :: rest)).length =
      (20 + (tail ++ '\n' :: rest).length) + 1 := by
    rw [List.length_append]
    have h21 : issToken.length = 21 := rfl
    omega
  rw [hlen, scanIssF_token_step, restOfLine_append tail rest ht]
  rw [scanIssF_fuel V (20 + (tail ++ '\n' :: rest).length) ('\n' :: rest)
    (rest.length + 1)
    (by simp only [List.length_append, List.length_cons]; omega) (by simp)]
  have hstep : scanIssF V (rest.length + 1) ('\n' :: rest) =
      '\n' :: scanIssF V rest.length rest := by
    simp only [scanIssF]
    rw [if_neg (by simp [issToken_not_prefix_newline])]
  rw [hstep]

/-- C4 (amended): for any installer-script content made of newline-free
lines, with the directive token occurring only at line starts, the rewrite
replaces every line beginning with `#define MyAppVersion ` by the captured
token followed by one further space and the double-quoted target version
(so two spaces end up between `MyAppVersion` and the quoted value, and the
previous value is discarded), and leaves every other line unchanged. -/
theorem iss_updater_line_behaviour (V : List Char) (ls : List (List Char))
    (hnl : ∀ l ∈ ls, ('\n' : Char) ∉ l)
    (hmid : ∀ l ∈ ls, issToken.isPrefixOf l = true ∨ containsToken l = false) :
    issTransform V (joinSep '\n' ls) =
      joinSep '\n' (ls.map (specLineRewrite V)) := by
  revert hnl hmid
  induction ls with
  | nil => intro _ _; rfl
  | cons l ls' ih =>
    intro hnl hmid
    have hl := hmid l (List.mem_cons_self _ _)
    have hnl_l := hnl l (List.mem_cons_self _ _)
    cases ls' with
    | nil =>
      show issTransform V l = joinSep '\n' [specLineRewrite V l]
      rcases hl with hp | hcl
      · obtain ⟨tail, htail⟩ := List.isPrefixOf_iff_prefix.mp hp
        have htnl : ('\n' : Char) ∉ tail := by
          intro hm
          exact hnl_l (by rw [← htail]; exact List.mem_append_right _ hm)
        rw [← htail, iss_directive_rewrite V tail htnl]
        show _ = specLineRewrite V (issToken ++ tail)
        unfold specLineRewrite
        rw [if_pos (isPrefixOf_self_append issToken tail)]
      · rw [issTransform_no_token V l hcl]
        show l = specLineRewrite V l
        unfold specLineRewrite
        rw [if_neg (by simp [not_prefix_of_not_containsToken l hcl])]
    | cons m ms =>
      have hnl' : ∀ x ∈ m :: ms, ('\n' : Char) ∉ x :=
        fun x hx => hnl x (List.mem_cons_of_mem _ hx)
      have hmid' : ∀ x ∈ m :: ms,
          issToken.isPrefixOf x = true ∨ containsToken x = false :=
        fun x hx => hmid x (List.mem_cons_of_mem _ hx)
      have hrec := ih hnl' hmid'
      show issTransform V (l ++ '\n' :: joinSep '\n' (m :: ms)) =
        specLineRewrite V l ++ '\n' ::
          joinSep '\n' ((m :: ms).map (specLineRewrite V))
      rcases hl with hp | hcl
      · obtain ⟨tail, htail⟩ := List.isPrefixOf_iff_prefix.mp hp
        have htnl : ('\n' : Char) ∉ tail := by
          intro hm
          exact hnl_l (by rw [← htail]; exact List.mem_append_right _ hm)
        rw [← htail, issTransform_token_line V tail _ htnl, hrec]
        have hsl : specLineRewrite V (issToken ++ tail) =
            issToken ++ ' ' :: '\x22' :: (V ++ ['\x22']) := by
          unfold specLineRewrite
          rw [if_pos (isPrefixOf_self_append issToken tail)]
        rw [hsl]
      · rw [issTransform_clean_line V l _ hcl, hrec]
        have hsl : specLineRewrite V l = l := by
          unfold specLineRewrite
          rw [if_neg (by simp [not_prefix_of_not_containsToken l hcl])]
        rw [hsl]

/-- Witness for the amended C4: a two-line installer script whose first line
is the example directive and whose second line is an unrelated section
header. -/
theorem iss_updater_line_behaviour_witness :
    issTransform "2.3.1.7".data
      (joinSep '\n'
        ["#define MyAppVersion \x221.0.0.0\x22".data, "[Files]".data]) =
      joinSep '\n'
        (["#define MyAppVersion \x221.0.0.0\x22".data, "[Files]".data].map
          (specLineRewrite "2.3.1.7".data)) :=
  iss_updater_line_behaviour "2.3.1.7".data
    ["#define MyAppVersion \x221.0.0.0\x22".data, "[Files]".data]
    (by decide) (by decide)
